import Mathlib

/-!
Verification of the Protocol Buffers wire-format codec of this repository
(`src/encoding.rs`, `src/message.rs`).

Byte buffers are modelled as `List Nat`, where each element is one byte
(values are reduced `% 256` at the point where the source reads a `u8`).
Machine integers are modelled as `Nat` (unsigned) and `Int` (signed), with
explicit `% 2 ^ w` reductions exactly where the Rust code truncates or
wraps.  Fallible decoding functions return `Option`.  Loops that Rust
bounds by a counter or by buffer exhaustion are modelled by structurally
recursive functions with an explicit fuel argument that matches the
source's own bound (`decode_varint` is bounded by 10 iterations in the
source; `encode_varint` of a `u64` writes at most 10 bytes; the packed
and map merge loops consume at least one byte per iteration, so the
length of the sub-buffer bounds them).
-/

/-- LEB128 encoding step of `encode_varint` (src/encoding.rs lines 42-68).
The Rust loop writes `(value & 0x7F) | 0x80` and shifts by 7 while
`value >= 0x80`, then writes the final byte.  A `u64` input needs at most
10 iterations, which the fuel reflects. -/
def encode_varint_aux : Nat → Nat → List Nat
  | 0, value => [value % 128]
  | fuel + 1, value =>
    if value < 128 then [value]
    else (value % 128 + 128) :: encode_varint_aux fuel (value / 128)

/-- Encodes an integer value into LEB128 variable length format
(src/encoding.rs `encode_varint`). -/
def encode_varint (value : Nat) : List Nat :=
  encode_varint_aux 10 value

/-- Loop body of `decode_varint` (src/encoding.rs lines 72-83): the source
iterates `count` over `0..min(10, buf.remaining())`, reading one byte per
iteration, or-ing `(byte & 0x7F) << (count * 7)` (a `u64` shift, hence the
`% 2 ^ 64`) into the accumulator, and returns as soon as a byte with the
high bit clear is read.  `fuel` counts the remaining iterations of the
source loop, so `fuel + count = 10` at every call. -/
def decode_varint_aux : Nat → Nat → Nat → List Nat → Option (Nat × List Nat)
  | 0, _, _, _ => none
  | _ + 1, _, _, [] => none
  | fuel + 1, count, value, c :: rest =>
    let byte := c % 256
    let value := value ||| (((byte % 128) <<< (count * 7)) % 2 ^ 64)
    if byte ≤ 127 then some (value, rest)
    else decode_varint_aux fuel (count + 1) value rest

/-- Decodes a LEB128-encoded variable length integer from the buffer
(src/encoding.rs `decode_varint`), returning the value and the
unconsumed remainder of the buffer; `none` models the
`failed to decode varint` error. -/
def decode_varint (buf : List Nat) : Option (Nat × List Nat) :=
  decode_varint_aux 10 0 0 buf

/-- Returns the encoded length of the value in LEB128 format
(src/encoding.rs `encoded_len_varint`); between 1 and 10. -/
def encoded_len_varint (value : Nat) : Nat :=
  if value < 1 <<< 7 then 1
  else if value < 1 <<< 14 then 2
  else if value < 1 <<< 21 then 3
  else if value < 1 <<< 28 then 4
  else if value < 1 <<< 35 then 5
  else if value < 1 <<< 42 then 6
  else if value < 1 <<< 49 then 7
  else if value < 1 <<< 56 then 8
  else if value < 1 <<< 63 then 9
  else 10

/-- Wire type discriminator (src/encoding.rs `WireType`). -/
inductive WireType : Type where
  | Varint
  | SixtyFourBit
  | LengthDelimited
  | ThirtyTwoBit
deriving DecidableEq, Repr

/-- The numeric value of a wire type (`WireType` is `repr(u8)` with
Varint = 0, SixtyFourBit = 1, LengthDelimited = 2, ThirtyTwoBit = 5). -/
def WireType.toNat : WireType → Nat
  | .Varint => 0
  | .SixtyFourBit => 1
  | .LengthDelimited => 2
  | .ThirtyTwoBit => 5

/-- src/encoding.rs `MIN_TAG`. -/
def MIN_TAG : Nat := 1

/-- src/encoding.rs `MAX_TAG` = `(1 << 29) - 1`. -/
def MAX_TAG : Nat := (1 <<< 29) - 1

/-- src/encoding.rs `WireType::try_from`: values 0, 1, 2, 5 map to wire
types, everything else is an `invalid wire type value` error. -/
def wire_type_try_from (val : Nat) : Option WireType :=
  match val with
  | 0 => some WireType.Varint
  | 1 => some WireType.SixtyFourBit
  | 2 => some WireType.LengthDelimited
  | 5 => some WireType.ThirtyTwoBit
  | _ => none

/-- src/encoding.rs `encode_key`: emits `varint((tag << 3) | wire_type)`.
(The source's `debug_assert` on the tag range is compiled out in release
builds and is not part of the function's behaviour.) -/
def encode_key (tag : Nat) (wire_type : WireType) : List Nat :=
  encode_varint ((tag <<< 3) ||| wire_type.toNat)

/-- src/encoding.rs `decode_key`: reads a varint key, fails on `u32`
overflow, splits it into wire-type bits (`key as u8 & 0x07`) and tag
(`key as u32 >> 3`), and rejects tag zero. -/
def decode_key (buf : List Nat) : Option ((Nat × WireType) × List Nat) :=
  match decode_varint buf with
  | none => none
  | some (key, rest) =>
    if 2 ^ 32 - 1 < key then none
    else
      match wire_type_try_from (key % 256 % 8) with
      | none => none
      | some wire_type =>
        let tag := key % 2 ^ 32 / 8
        if tag < MIN_TAG then none
        else some ((tag, wire_type), rest)

/-- src/encoding.rs `key_len`: width of an encoded key with the given tag. -/
def key_len (tag : Nat) : Nat :=
  encoded_len_varint (tag <<< 3)

/-- src/encoding.rs `check_wire_type`: error when the actual wire type
differs from the expected one. -/
def check_wire_type (expected actual : WireType) : Option Unit :=
  if expected = actual then some () else none

/-- src/encoding.rs `skip_field`: drains one field of the given wire type
from the buffer. -/
def skip_field (wire_type : WireType) (buf : List Nat) : Option (List Nat) :=
  match wire_type with
  | WireType.Varint =>
    match decode_varint buf with
    | none => none
    | some (_, rest) => some rest
  | WireType.SixtyFourBit =>
    if buf.length < 8 then none else some (buf.drop 8)
  | WireType.ThirtyTwoBit =>
    if buf.length < 4 then none else some (buf.drop 4)
  | WireType.LengthDelimited =>
    match decode_varint buf with
    | none => none
    | some (len, rest) =>
      if rest.length < len then none else some (rest.drop len)

/-- Default `to_uint64` of the `varint!` macro instantiated at `i32`
(src/encoding.rs lines 250-254 and 349): `*value as u64` sign-extends,
i.e. takes the value modulo `2 ^ 64`. -/
def int32_to_uint64 (value : Int) : Nat :=
  (value % 2 ^ 64).toNat

/-- Default `from_uint64` of the `varint!` macro instantiated at `i32`:
`value as i32` keeps the low 32 bits, read as two's complement. -/
def int32_from_uint64 (value : Nat) : Int :=
  if value % 2 ^ 32 < 2 ^ 31 then ((value % 2 ^ 32 : Nat) : Int)
  else ((value % 2 ^ 32 : Nat) : Int) - 2 ^ 32

/-- `int32::encode` (generated by `varint!(i32, int32)`). -/
def int32_encode (tag : Nat) (value : Int) : List Nat :=
  encode_key tag WireType.Varint ++ encode_varint (int32_to_uint64 value)

/-- `int32::merge` (generated by `varint!(i32, int32)`): checks the wire
type, decodes a varint and overwrites the destination with the truncated
value. -/
def int32_merge (wire_type : WireType) (_dst : Int) (buf : List Nat) :
    Option (Int × List Nat) :=
  match check_wire_type WireType.Varint wire_type with
  | none => none
  | some _ =>
    match decode_varint buf with
    | none => none
    | some (v, rest) => some (int32_from_uint64 v, rest)

/-- `int32::encoded_len` (generated by `varint!(i32, int32)`). -/
def int32_encoded_len (tag : Nat) (value : Int) : Nat :=
  key_len tag + encoded_len_varint (int32_to_uint64 value)

/-- `to_uint64` for `sint32` (src/encoding.rs lines 353-356):
`((value << 1) ^ (value >> 31)) as u32 as u64`, computed on the 32-bit
two's complement representation of `value` (`<<` wraps, `>>` is an
arithmetic shift producing 0 or all ones). -/
def sint32_to_uint64 (value : Int) : Nat :=
  ((value % 2 ^ 32).toNat * 2 % 2 ^ 32) ^^^
    (if 2 ^ 31 ≤ (value % 2 ^ 32).toNat then 2 ^ 32 - 1 else 0)

/-- The inverse zig-zag expression of the `sint32` `from_uint64`
(src/encoding.rs lines 357-360): `((value >> 1) as i32) ^ (-((value & 1)
as i32))` on a `u32` word, read back as a two's complement `i32`. -/
def zigzag32_decode (w : Nat) : Int :=
  if (w / 2) ^^^ (if w % 2 = 1 then 2 ^ 32 - 1 else 0) < 2 ^ 31
  then (((w / 2) ^^^ (if w % 2 = 1 then 2 ^ 32 - 1 else 0) : Nat) : Int)
  else (((w / 2) ^^^ (if w % 2 = 1 then 2 ^ 32 - 1 else 0) : Nat) : Int) - 2 ^ 32

/-- `from_uint64` for `sint32` (src/encoding.rs lines 357-360): the
source first truncates with `let value = value as u32;`, then applies the
width-31 inverse zig-zag. -/
def sint32_from_uint64 (value : Nat) : Int :=
  zigzag32_decode (value % 2 ^ 32)

/-- `sint32::merge` (generated by `varint!(i32, sint32, ...)`). -/
def sint32_merge (wire_type : WireType) (_dst : Int) (buf : List Nat) :
    Option (Int × List Nat) :=
  match check_wire_type WireType.Varint wire_type with
  | none => none
  | some _ =>
    match decode_varint buf with
    | none => none
    | some (v, rest) => some (sint32_from_uint64 v, rest)

/-- `uint64::merge` (generated by `varint!(u64, uint64)`; both
conversions are the identity on `u64`). -/
def uint64_merge (wire_type : WireType) (_dst : Nat) (buf : List Nat) :
    Option (Nat × List Nat) :=
  match check_wire_type WireType.Varint wire_type with
  | none => none
  | some _ =>
    match decode_varint buf with
    | none => none
    | some (v, rest) => some (v, rest)

/-- `uint32::merge` (generated by `varint!(u32, uint32)`; `from_uint64`
is `value as u32`). -/
def uint32_merge (wire_type : WireType) (_dst : Nat) (buf : List Nat) :
    Option (Nat × List Nat) :=
  match check_wire_type WireType.Varint wire_type with
  | none => none
  | some _ =>
    match decode_varint buf with
    | none => none
    | some (v, rest) => some (v % 2 ^ 32, rest)

/-- Loop of the `LengthDelimited` branch of `merge_repeated_numeric!`
(src/encoding.rs lines 229-233): while the sub-buffer is not empty, merge
one value (into a fresh default) and push it.  Every single-value merge
consumes at least one byte on success, so the length of the sub-buffer is
sufficient fuel; the fuel-exhaustion `none` is unreachable then. -/
def merge_repeated_loop {α : Type} (mergeOne : List Nat → Option (α × List Nat)) :
    Nat → List α → List Nat → Option (List α)
  | _, values, [] => some values
  | 0, _, _ :: _ => none
  | fuel + 1, values, c :: rest =>
    match mergeOne (c :: rest) with
    | none => none
    | some (v, buf2) => merge_repeated_loop mergeOne fuel (values ++ [v]) buf2

/-- src/encoding.rs `merge_repeated_numeric!` (lines 213-243),
parameterised by the kind's natural wire type, default value and
single-value merge, exactly as the macro is: on `LengthDelimited` it
reads an inner length, checks it against the remaining bytes, splits off
a sub-buffer and runs the push loop on it; on any other wire type it
checks the natural wire type and merges a single value. -/
def merge_repeated_numeric {α : Type} (natural_wt : WireType) (dflt : α)
    (mergeOne : WireType → α → List Nat → Option (α × List Nat))
    (wire_type : WireType) (values : List α) (buf : List Nat) :
    Option (List α × List Nat) :=
  if wire_type = WireType.LengthDelimited then
    match decode_varint buf with
    | none => none
    | some (len, rest) =>
      if rest.length < len then none
      else
        match merge_repeated_loop (mergeOne natural_wt dflt) len values (rest.take len) with
        | none => none
        | some values2 => some (values2, rest.drop len)
  else
    match check_wire_type natural_wt wire_type with
    | none => none
    | some _ =>
      match mergeOne wire_type dflt buf with
      | none => none
      | some (v, rest) => some (values ++ [v], rest)

/-- `uint64::merge_repeated`, the `merge_repeated_numeric!` instance for
`u64` with natural wire type `Varint`. -/
def uint64_merge_repeated :
    WireType → List Nat → List Nat → Option (List Nat × List Nat) :=
  merge_repeated_numeric WireType.Varint 0 uint64_merge

/-- The claim's reading of the packed branch: repeatedly merge single
values from the sub-cursor until it is empty, collecting the values in
order. -/
def merge_singles {α : Type} (mergeOne : List Nat → Option (α × List Nat)) :
    Nat → List Nat → Option (List α)
  | _, [] => some []
  | 0, _ :: _ => none
  | fuel + 1, c :: rest =>
    match mergeOne (c :: rest) with
    | none => none
    | some (v, buf2) =>
      match merge_singles mergeOne fuel buf2 with
      | none => none
      | some vs => some (v :: vs)

/-- Replace-or-add into an association list, modelling the keyed
`insert` of `BTreeMap` / `HashMap`. -/
def map_insert {K V : Type} [DecidableEq K] :
    List (K × V) → K → V → List (K × V)
  | [], k, v => [(k, v)]
  | (k2, v2) :: rest, k, v =>
    if k2 = k then (k, v) :: rest else (k2, v2) :: map_insert rest k v

/-- Loop of `merge_with_default` (src/encoding.rs lines 731-738): decode
a key from the sub-buffer and dispatch on the inner tag — 1 merges into
the key, 2 merges into the value, and any other tag does nothing (the
source's `_` arm is the unit expression: the key is consumed but the
field payload is not).  `decode_key` consumes at least one byte, so the
sub-buffer length is sufficient fuel. -/
def merge_with_default_loop {K V : Type}
    (key_merge : WireType → K → List Nat → Option (K × List Nat))
    (val_merge : WireType → V → List Nat → Option (V × List Nat)) :
    Nat → K → V → List Nat → Option (K × V)
  | _, key, val, [] => some (key, val)
  | 0, _, _, _ :: _ => none
  | fuel + 1, key, val, c :: rest =>
    match decode_key (c :: rest) with
    | none => none
    | some ((tag, wire_type), rest2) =>
      if tag = 1 then
        match key_merge wire_type key rest2 with
        | none => none
        | some (key2, rest3) =>
          merge_with_default_loop key_merge val_merge fuel key2 val rest3
      else if tag = 2 then
        match val_merge wire_type val rest2 with
        | none => none
        | some (val2, rest3) =>
          merge_with_default_loop key_merge val_merge fuel key val2 rest3
      else
        merge_with_default_loop key_merge val_merge fuel key val rest2

/-- src/encoding.rs `merge_with_default` (lines 713-742): read the
entry's inner length, check it against the remaining bytes, split off the
sub-buffer, run the dispatch loop starting from the default key and the
supplied value default, and insert the resulting pair into the map. -/
def merge_with_default {K V : Type} [DecidableEq K]
    (key_merge : WireType → K → List Nat → Option (K × List Nat))
    (val_merge : WireType → V → List Nat → Option (V × List Nat))
    (kdflt : K) (val_default : V) (values : List (K × V)) (buf : List Nat) :
    Option (List (K × V) × List Nat) :=
  match decode_varint buf with
  | none => none
  | some (len, rest) =>
    if rest.length < len then none
    else
      match merge_with_default_loop key_merge val_merge len kdflt val_default
          (rest.take len) with
      | none => none
      | some (key, val) => some (map_insert values key val, rest.drop len)

/-- The dispatch loop as the claim (and spec section 4.5) describes it:
identical to `merge_with_default_loop` except that an inner tag other
than 1 or 2 is skipped with `skip_field`, draining its payload. -/
def merge_with_default_loop_skipping {K V : Type}
    (key_merge : WireType → K → List Nat → Option (K × List Nat))
    (val_merge : WireType → V → List Nat → Option (V × List Nat)) :
    Nat → K → V → List Nat → Option (K × V)
  | _, key, val, [] => some (key, val)
  | 0, _, _, _ :: _ => none
  | fuel + 1, key, val, c :: rest =>
    match decode_key (c :: rest) with
    | none => none
    | some ((tag, wire_type), rest2) =>
      if tag = 1 then
        match key_merge wire_type key rest2 with
        | none => none
        | some (key2, rest3) =>
          merge_with_default_loop_skipping key_merge val_merge fuel key2 val rest3
      else if tag = 2 then
        match val_merge wire_type val rest2 with
        | none => none
        | some (val2, rest3) =>
          merge_with_default_loop_skipping key_merge val_merge fuel key val2 rest3
      else
        match skip_field wire_type rest2 with
        | none => none
        | some rest3 =>
          merge_with_default_loop_skipping key_merge val_merge fuel key val rest3

/-- Map merge as the claim describes it: `merge_with_default` with the
skipping dispatch loop. -/
def merge_with_default_skipping {K V : Type} [DecidableEq K]
    (key_merge : WireType → K → List Nat → Option (K × List Nat))
    (val_merge : WireType → V → List Nat → Option (V × List Nat))
    (kdflt : K) (val_default : V) (values : List (K × V)) (buf : List Nat) :
    Option (List (K × V) × List Nat) :=
  match decode_varint buf with
  | none => none
  | some (len, rest) =>
    if rest.length < len then none
    else
      match merge_with_default_loop_skipping key_merge val_merge len kdflt val_default
          (rest.take len) with
      | none => none
      | some (key, val) => some (map_insert values key val, rest.drop len)

/-- `string::encode` (src/encoding.rs lines 517-523): key with
`LengthDelimited`, varint of the byte length, then the string's bytes
(the string value is modelled by its UTF-8 byte list). -/
def string_encode (tag : Nat) (value : List Nat) : List Nat :=
  encode_key tag WireType.LengthDelimited ++ encode_varint value.length ++ value

/-- `string::encoded_len` (from the `length_delimited!` macro, lines
479-481). -/
def string_encoded_len (tag : Nat) (value : List Nat) : Nat :=
  key_len tag + encoded_len_varint value.length + value.length

/-- `bytes::encode` (src/encoding.rs lines 545-549). -/
def bytes_encode (tag : Nat) (value : List Nat) : List Nat :=
  encode_key tag WireType.LengthDelimited ++ encode_varint value.length ++ value

/-- `bytes::encoded_len` (from the `length_delimited!` macro). -/
def bytes_encoded_len (tag : Nat) (value : List Nat) : Nat :=
  key_len tag + encoded_len_varint value.length + value.length

/-- `uint32::encode_packed` (from the `varint!` macro, lines 278-290):
no output for an empty vector; otherwise key, varint of the summed inner
varint lengths, then the concatenated value varints. -/
def uint32_encode_packed (tag : Nat) (values : List Nat) : List Nat :=
  if values = [] then []
  else
    encode_key tag WireType.LengthDelimited ++
      encode_varint (values.map encoded_len_varint).sum ++
      (values.map encode_varint).flatten

/-- `uint32::encoded_len_packed` (lines 304-313). -/
def uint32_encoded_len_packed (tag : Nat) (values : List Nat) : Nat :=
  if values = [] then 0
  else
    key_len tag + encoded_len_varint (values.map encoded_len_varint).sum +
      (values.map encoded_len_varint).sum

/-- Little-endian byte serialisation of a `u32`
(`put_u32::<LittleEndian>`). -/
def u32_le_bytes (value : Nat) : List Nat :=
  [value % 256, value / 2 ^ 8 % 256, value / 2 ^ 16 % 256, value / 2 ^ 24 % 256]

/-- `fixed32::encode_packed` (from the `fixed_width!` macro, lines
397-407): no output for an empty vector; otherwise key, varint of
`values.len() * 4`, then the little-endian values. -/
def fixed32_encode_packed (tag : Nat) (values : List Nat) : List Nat :=
  if values = [] then []
  else
    encode_key tag WireType.LengthDelimited ++
      encode_varint (values.length * 4) ++
      (values.map u32_le_bytes).flatten

/-- `fixed32::encoded_len_packed` (lines 419-426). -/
def fixed32_encoded_len_packed (tag : Nat) (values : List Nat) : Nat :=
  if values = [] then 0
  else key_len tag + encoded_len_varint (4 * values.length) + 4 * values.length

/-- Result of a merge into a length-delimited destination: the
destination and buffer as the call leaves them (Rust mutates both
through `&mut` references even when it then returns an error), and the
success flag. -/
structure MergeResult where
  dest : List Nat
  buf : List Nat
  ok : Bool
deriving DecidableEq, Repr

/-- `bytes::merge` (src/encoding.rs lines 551-561): check the wire type,
decode the length, check for underflow — all before touching the
destination — then extend the destination with the payload and advance
the buffer.  On the underflow error the buffer has consumed the length
varint; on every error path the destination is untouched. -/
def bytes_merge (wire_type : WireType) (value buf : List Nat) : MergeResult :=
  match check_wire_type WireType.LengthDelimited wire_type with
  | none => ⟨value, buf, false⟩
  | some _ =>
    match decode_varint buf with
    | none => ⟨value, buf, false⟩
    | some (len, rest) =>
      if rest.length < len then ⟨value, rest, false⟩
      else ⟨value ++ rest.take len, rest.drop len, true⟩

/-- Continuation byte of UTF-8 (0x80 to 0xBF). -/
def utf8_cont (b : Nat) : Bool :=
  decide (128 ≤ b ∧ b ≤ 191)

/-- UTF-8 validity of a byte list, following the standard table that
Rust's `str::from_utf8` implements (RFC 3629: shortest forms only, no
surrogates, code points at most U+10FFFF). -/
def utf8_valid : List Nat → Bool
  | [] => true
  | b :: rest =>
    if b ≤ 127 then utf8_valid rest
    else if 194 ≤ b ∧ b ≤ 223 then
      match rest with
      | c1 :: r => utf8_cont c1 && utf8_valid r
      | [] => false
    else if b = 224 then
      match rest with
      | c1 :: c2 :: r => decide (160 ≤ c1 ∧ c1 ≤ 191) && utf8_cont c2 && utf8_valid r
      | _ => false
    else if 225 ≤ b ∧ b ≤ 236 then
      match rest with
      | c1 :: c2 :: r => utf8_cont c1 && utf8_cont c2 && utf8_valid r
      | _ => false
    else if b = 237 then
      match rest with
      | c1 :: c2 :: r => decide (128 ≤ c1 ∧ c1 ≤ 159) && utf8_cont c2 && utf8_valid r
      | _ => false
    else if 238 ≤ b ∧ b ≤ 239 then
      match rest with
      | c1 :: c2 :: r => utf8_cont c1 && utf8_cont c2 && utf8_valid r
      | _ => false
    else if b = 240 then
      match rest with
      | c1 :: c2 :: c3 :: r =>
        decide (144 ≤ c1 ∧ c1 ≤ 191) && utf8_cont c2 && utf8_cont c3 && utf8_valid r
      | _ => false
    else if 241 ≤ b ∧ b ≤ 243 then
      match rest with
      | c1 :: c2 :: c3 :: r =>
        utf8_cont c1 && utf8_cont c2 && utf8_cont c3 && utf8_valid r
      | _ => false
    else if b = 244 then
      match rest with
      | c1 :: c2 :: c3 :: r =>
        decide (128 ≤ c1 ∧ c1 ≤ 143) && utf8_cont c2 && utf8_cont c3 && utf8_valid r
      | _ => false
    else false

/-- `string::merge` (src/encoding.rs lines 524-537): delegate to
`bytes::merge` on the string's byte vector (`String::as_mut_vec`), then
check that the whole destination is valid UTF-8; the UTF-8 error is
raised only after the destination has already been extended. -/
def string_merge (wire_type : WireType) (value buf : List Nat) : MergeResult :=
  let r := bytes_merge wire_type value buf
  if r.ok then
    if utf8_valid r.dest then r else ⟨r.dest, r.buf, false⟩
  else r

/-- `uint64::encode` (generated by `varint!(u64, uint64)`). -/
def uint64_encode (tag : Nat) (value : Nat) : List Nat :=
  encode_key tag WireType.Varint ++ encode_varint value

/-- `uint64::encoded_len` (generated by `varint!(u64, uint64)`). -/
def uint64_encoded_len (tag : Nat) (value : Nat) : Nat :=
  key_len tag + encoded_len_varint value

/-- `message::encode` (src/encoding.rs lines 571-576) with the child
message already rendered: key, varint of the child's encoded length,
then the child's bytes. -/
def message_field_encode (tag : Nat) (len : Nat) (payload : List Nat) : List Nat :=
  encode_key tag WireType.LengthDelimited ++ encode_varint len ++ payload

/-- `message::encoded_len` (src/encoding.rs lines 605-608). -/
def message_field_encoded_len (tag : Nat) (len : Nat) : Nat :=
  key_len tag + encoded_len_varint len + len

/-- Modelled from the spec: the per-message `Message` impls come from the
external code generator (spec sections 4.6 and 6), not from src/.
`SubMsg` is a generated message with a single `uint64` field at tag 1,
elided at its proto3 default. -/
structure SubMsg where
  g1 : Nat
deriving DecidableEq, Repr

/-- Modelled from the spec: generated `encode` of `SubMsg`. -/
def SubMsg.encode (m : SubMsg) : List Nat :=
  if m.g1 = 0 then [] else uint64_encode 1 m.g1

/-- Modelled from the spec: generated `encoded_len` of `SubMsg`. -/
def SubMsg.encoded_len (m : SubMsg) : Nat :=
  if m.g1 = 0 then 0 else uint64_encoded_len 1 m.g1

/-- Modelled from the spec: a representative generated message with an
`int32` field (tag 1), a `uint64` field (tag 2), a `string` field
(tag 3), a packed repeated `uint32` field (tag 4) and an optional nested
message field (tag 5).  Spec section 6: the generator provides an encode
function emitting per-field output and a length function summing
per-field contributions; singular proto3 scalars are elided at their
defaults (section 3), the empty packed run is elided by `encode_packed`
itself, and an optional message is emitted when present. -/
structure TestMsg where
  f1 : Int
  f2 : Nat
  f3 : List Nat
  f4 : List Nat
  sub : Option SubMsg
deriving DecidableEq, Repr

/-- Modelled from the spec: generated `encode` of `TestMsg`. -/
def TestMsg.encode (m : TestMsg) : List Nat :=
  (if m.f1 = 0 then [] else int32_encode 1 m.f1) ++
  (if m.f2 = 0 then [] else uint64_encode 2 m.f2) ++
  (if m.f3 = [] then [] else string_encode 3 m.f3) ++
  uint32_encode_packed 4 m.f4 ++
  (match m.sub with
   | none => []
   | some s => message_field_encode 5 s.encoded_len s.encode)

/-- Modelled from the spec: generated `encoded_len` of `TestMsg`. -/
def TestMsg.encoded_len (m : TestMsg) : Nat :=
  (if m.f1 = 0 then 0 else int32_encoded_len 1 m.f1) +
  (if m.f2 = 0 then 0 else uint64_encoded_len 2 m.f2) +
  (if m.f3 = [] then 0 else string_encoded_len 3 m.f3) +
  uint32_encoded_len_packed 4 m.f4 +
  (match m.sub with
   | none => 0
   | some s => message_field_encoded_len 5 s.encoded_len)

/-- The field values representable by the Rust field types: `f1` is an
`i32`, `f2` a `u64`, `f3` a byte vector, `f4` a vector of `u32`, and the
nested `g1` a `u64` (vector lengths are `usize`, at most 64 bits). -/
def TestMsg.wf (m : TestMsg) : Prop :=
  -(2 ^ 31) ≤ m.f1 ∧ m.f1 < 2 ^ 31 ∧ m.f2 < 2 ^ 64 ∧ m.f3.length < 2 ^ 64 ∧
  (∀ v ∈ m.f4, v < 2 ^ 32) ∧ m.f4.length < 2 ^ 32 ∧
  (match m.sub with
   | none => True
   | some s => s.g1 < 2 ^ 64)

/-- The bits of `a <<< k` and of `b < 2 ^ k` do not overlap, so their
bitwise or is their sum. -/
theorem shiftLeft_lor_eq_add (a b k : Nat) (hb : b < 2 ^ k) :
    (a <<< k) ||| b = a * 2 ^ k + b := by
  apply Nat.eq_of_testBit_eq
  intro i
  simp only [Nat.testBit_or, Nat.testBit_shiftLeft]
  by_cases h : k ≤ i
  · have hb2 : b < 2 ^ i := lt_of_lt_of_le hb (Nat.pow_le_pow_right (by norm_num) h)
    rw [Nat.testBit_lt_two_pow hb2]
    have hge : decide (i ≥ k) = true := by simpa using h
    rw [hge]
    simp only [Bool.true_and, Bool.or_false]
    rw [Nat.testBit_to_div_mod, Nat.testBit_to_div_mod]
    have hpow : (2 : Nat) ^ i = 2 ^ k * 2 ^ (i - k) := by
      rw [← pow_add]
      congr 1
      omega
    have hdivk : (a * 2 ^ k + b) / 2 ^ k = a := by
      rw [Nat.add_comm, Nat.mul_comm]
      rw [Nat.add_mul_div_left _ _ (pow_pos (by norm_num) k)]
      rw [Nat.div_eq_of_lt hb]
      omega
    rw [hpow, ← Nat.div_div_eq_div_mul, hdivk]
  · have hlt : i < k := by omega
    have hge : decide (i ≥ k) = false := by simpa using hlt
    rw [hge]
    simp only [Bool.false_and, Bool.false_or]
    rw [Nat.testBit_to_div_mod, Nat.testBit_to_div_mod]
    obtain ⟨j, hj⟩ : ∃ j, k = j + 1 + i := ⟨k - i - 1, by omega⟩
    subst hj
    have hsplit : a * 2 ^ (j + 1 + i) = 2 * (a * 2 ^ j) * 2 ^ i := by
      rw [pow_add, pow_add]
      ring
    have hdiv : (a * 2 ^ (j + 1 + i) + b) / 2 ^ i = b / 2 ^ i + 2 * (a * 2 ^ j) := by
      rw [hsplit, Nat.add_comm]
      rw [Nat.add_mul_div_right _ _ (pow_pos (by norm_num) i)]
    rw [hdiv]
    have hmod : (b / 2 ^ i + 2 * (a * 2 ^ j)) % 2 = b / 2 ^ i % 2 := by
      omega
    rw [hmod]

/-- Symmetric form of `shiftLeft_lor_eq_add`. -/
theorem lor_shiftLeft_eq_add (a b k : Nat) (ha : a < 2 ^ k) :
    a ||| (b <<< k) = a + b * 2 ^ k := by
  rw [Nat.or_comm, shiftLeft_lor_eq_add b a k ha]
  omega

/-- Multiplication form of `lor_shiftLeft_eq_add`. -/
theorem lor_mul_two_pow_eq_add (a b k : Nat) (ha : a < 2 ^ k) :
    a ||| b * 2 ^ k = a + b * 2 ^ k := by
  conv_lhs => rw [← Nat.shiftLeft_eq]
  exact lor_shiftLeft_eq_add a b k ha

/-- Each of the nested thresholds of `encoded_len_varint` as a numeral. -/
theorem encoded_len_varint_numerals (value : Nat) :
    encoded_len_varint value =
      if value < 128 then 1
      else if value < 16384 then 2
      else if value < 2097152 then 3
      else if value < 268435456 then 4
      else if value < 34359738368 then 5
      else if value < 4398046511104 then 6
      else if value < 562949953421312 then 7
      else if value < 72057594037927936 then 8
      else if value < 9223372036854775808 then 9
      else 10 := by
  simp only [encoded_len_varint, Nat.shiftLeft_eq, one_mul]

/-- Bracket characterisation of `encoded_len_varint`, in a form `omega`
can consume. -/
theorem encoded_len_varint_charac (v : Nat) :
    (v < 128 ∧ encoded_len_varint v = 1) ∨
    (128 ≤ v ∧ v < 16384 ∧ encoded_len_varint v = 2) ∨
    (16384 ≤ v ∧ v < 2097152 ∧ encoded_len_varint v = 3) ∨
    (2097152 ≤ v ∧ v < 268435456 ∧ encoded_len_varint v = 4) ∨
    (268435456 ≤ v ∧ v < 34359738368 ∧ encoded_len_varint v = 5) ∨
    (34359738368 ≤ v ∧ v < 4398046511104 ∧ encoded_len_varint v = 6) ∨
    (4398046511104 ≤ v ∧ v < 562949953421312 ∧ encoded_len_varint v = 7) ∨
    (562949953421312 ≤ v ∧ v < 72057594037927936 ∧ encoded_len_varint v = 8) ∨
    (72057594037927936 ≤ v ∧ v < 9223372036854775808 ∧ encoded_len_varint v = 9) ∨
    (9223372036854775808 ≤ v ∧ encoded_len_varint v = 10) := by
  rw [encoded_len_varint_numerals]
  by_cases c1 : v < 128
  · rw [if_pos c1]; omega
  · rw [if_neg c1]
    by_cases c2 : v < 16384
    · rw [if_pos c2]; omega
    · rw [if_neg c2]
      by_cases c3 : v < 2097152
      · rw [if_pos c3]; omega
      · rw [if_neg c3]
        by_cases c4 : v < 268435456
        · rw [if_pos c4]; omega
        · rw [if_neg c4]
          by_cases c5 : v < 34359738368
          · rw [if_pos c5]; omega
          · rw [if_neg c5]
            by_cases c6 : v < 4398046511104
            · rw [if_pos c6]; omega
            · rw [if_neg c6]
              by_cases c7 : v < 562949953421312
              · rw [if_pos c7]; omega
              · rw [if_neg c7]
                by_cases c8 : v < 72057594037927936
                · rw [if_pos c8]; omega
                · rw [if_neg c8]
                  by_cases c9 : v < 9223372036854775808
                  · rw [if_pos c9]; omega
                  · rw [if_neg c9]; omega

/-- Dividing by 128 drops exactly one byte off the varint length, for
values in the `u64` varint range. -/
theorem encoded_len_varint_step (v : Nat) (h1 : 128 ≤ v) (h2 : v < 2 ^ 70) :
    encoded_len_varint v = 1 + encoded_len_varint (v / 128) := by
  have h2' : v < 1180591620717411303424 := by
    calc v < 2 ^ 70 := h2
    _ = 1180591620717411303424 := by norm_num
  have a := encoded_len_varint_charac v
  have b := encoded_len_varint_charac (v / 128)
  omega

/-- The byte list produced by the encoder has length `encoded_len_varint`. -/
theorem encode_varint_aux_len :
    ∀ fuel v, 0 < fuel → fuel ≤ 10 → v < 2 ^ (7 * fuel) →
      (encode_varint_aux fuel v).length = encoded_len_varint v := by
  intro fuel
  induction fuel with
  | zero => intro v h _ _; omega
  | succ f ih =>
    intro v _ hle hv
    rw [encode_varint_aux]
    by_cases hsmall : v < 128
    · rw [if_pos hsmall]
      have h1 : encoded_len_varint v = 1 := by
        have a := encoded_len_varint_charac v
        omega
      rw [h1]
      rfl
    · rw [if_neg hsmall]
      have hfpos : 0 < f := by
        by_contra hf0
        have : f = 0 := by omega
        subst this
        norm_num at hv
        omega
      have hdivbound : v / 128 < 2 ^ (7 * f) := by
        have h128 : (2 : Nat) ^ (7 * (f + 1)) = 2 ^ (7 * f) * 128 := by
          have : 7 * (f + 1) = 7 * f + 7 := by omega
          rw [this, pow_add]
          norm_num
        rw [Nat.div_lt_iff_lt_mul (by norm_num)]
        calc v < 2 ^ (7 * (f + 1)) := hv
        _ = 2 ^ (7 * f) * 128 := h128
      have hv70 : v < 2 ^ 70 := by
        calc v < 2 ^ (7 * (f + 1)) := hv
        _ ≤ 2 ^ 70 := Nat.pow_le_pow_right (by norm_num) (by omega)
      rw [List.length_cons, ih (v / 128) hfpos (by omega) hdivbound]
      rw [encoded_len_varint_step v (by omega) hv70]
      omega

/-- The encoded varint length is always between 1 and 10. -/
theorem encoded_len_varint_bounds (v : Nat) :
    1 ≤ encoded_len_varint v ∧ encoded_len_varint v ≤ 10 := by
  have a := encoded_len_varint_charac v
  omega

/-- Invariant of the decode loop running over freshly encoded bytes:
with `count` chunks already accumulated into `value`, decoding the
encoding of `v` adds `v * 2 ^ (count * 7)` and stops exactly at the
appended `rest`. -/
theorem decode_encode_varint_aux :
    ∀ fuel count value v rest, fuel + count = 10 → count ≤ 9 →
      v * 2 ^ (count * 7) < 2 ^ 64 → value < 2 ^ (count * 7) →
      decode_varint_aux fuel count value (encode_varint_aux fuel v ++ rest) =
        some (value + v * 2 ^ (count * 7), rest) := by
  intro fuel
  induction fuel with
  | zero => intro count value v rest hsum hcount _ _; omega
  | succ f ih =>
    intro count value v rest hsum hcount hv hvalue
    rw [encode_varint_aux]
    by_cases hsmall : v < 128
    · rw [if_pos hsmall]
      rw [List.singleton_append, decode_varint_aux]
      have hb : v % 256 = v := Nat.mod_eq_of_lt (by omega)
      have hb2 : v % 128 = v := Nat.mod_eq_of_lt hsmall
      simp only [hb, hb2]
      rw [if_pos (by omega : v ≤ 127)]
      have hchunk : v <<< (count * 7) % 2 ^ 64 = v * 2 ^ (count * 7) := by
        rw [Nat.shiftLeft_eq]
        exact Nat.mod_eq_of_lt hv
      rw [hchunk, lor_mul_two_pow_eq_add value v (count * 7) hvalue]
    · rw [if_neg hsmall]
      rw [List.cons_append, decode_varint_aux]
      have hb : (v % 128 + 128) % 256 = v % 128 + 128 := by
        omega
      simp only [hb]
      rw [if_neg (by omega : ¬v % 128 + 128 ≤ 127)]
      have hb2 : (v % 128 + 128) % 128 = v % 128 := by
        omega
      rw [hb2]
      have hcount8 : count ≤ 8 := by
        by_contra hc
        have hc9 : count = 9 := by omega
        subst hc9
        norm_num at hv
        omega
      have hchunklt : (v % 128) * 2 ^ (count * 7) < 2 ^ 64 :=
        lt_of_le_of_lt (Nat.mul_le_mul_right _ (Nat.mod_le v 128)) hv
      have hchunk : (v % 128) <<< (count * 7) % 2 ^ 64 = (v % 128) * 2 ^ (count * 7) := by
        rw [Nat.shiftLeft_eq]
        exact Nat.mod_eq_of_lt hchunklt
      rw [hchunk, lor_mul_two_pow_eq_add value (v % 128) (count * 7) hvalue]
      have hpowsucc : (2 : Nat) ^ ((count + 1) * 7) = 2 ^ (count * 7) * 128 := by
        have h7 : (count + 1) * 7 = count * 7 + 7 := by omega
        rw [h7, pow_add]
        norm_num
      have ihres := ih (count + 1) (value + (v % 128) * 2 ^ (count * 7)) (v / 128) rest
        (by omega) (by omega)
        (by
          rw [hpowsucc]
          calc v / 128 * (2 ^ (count * 7) * 128) = v / 128 * 128 * 2 ^ (count * 7) := by ring
          _ ≤ v * 2 ^ (count * 7) := Nat.mul_le_mul_right _ (by omega)
          _ < 2 ^ 64 := hv)
        (by
          rw [hpowsucc]
          have hm : v % 128 ≤ 127 := by omega
          calc value + (v % 128) * 2 ^ (count * 7)
              < 2 ^ (count * 7) + (v % 128) * 2 ^ (count * 7) := by omega
          _ ≤ 2 ^ (count * 7) + 127 * 2 ^ (count * 7) :=
              Nat.add_le_add_left (Nat.mul_le_mul_right _ hm) _
          _ = 2 ^ (count * 7) * 128 := by ring)
      rw [ihres]
      congr 2
      rw [hpowsucc]
      have hdm : v / 128 * 128 + v % 128 = v := by
        rw [Nat.mul_comm]
        exact Nat.div_add_mod v 128
      calc value + (v % 128) * 2 ^ (count * 7) + v / 128 * (2 ^ (count * 7) * 128)
          = value + (v % 128 + v / 128 * 128) * 2 ^ (count * 7) := by ring
      _ = value + v * 2 ^ (count * 7) := by
          rw [Nat.add_comm (v % 128) (v / 128 * 128), hdm]

/-- C1: For every 64-bit unsigned integer `v`, decoding the bytes produced
by `encode_varint v` (followed by any trailing bytes) yields `v` back and
consumes exactly the encoding; the number of bytes `encode_varint`
appends equals `encoded_len_varint v`, which lies between 1 and 10
inclusive. -/
theorem varint_round_trip (v : Nat) (rest : List Nat) (hv : v < 2 ^ 64) :
    decode_varint (encode_varint v ++ rest) = some (v, rest) ∧
    (encode_varint v).length = encoded_len_varint v ∧
    1 ≤ encoded_len_varint v ∧ encoded_len_varint v ≤ 10 := by
  refine ⟨?_, ?_, (encoded_len_varint_bounds v).1, (encoded_len_varint_bounds v).2⟩
  · have h := decode_encode_varint_aux 10 0 0 v rest (by omega) (by omega)
      (by simpa using hv) (by norm_num)
    simpa [decode_varint, encode_varint] using h
  · refine encode_varint_aux_len 10 v (by omega) (by omega) ?_
    calc v < 2 ^ 64 := hv
    _ ≤ 2 ^ (7 * 10) := by norm_num

/-- Witness for C1 at the largest `u64` value (a 10-byte varint). -/
theorem varint_round_trip_witness :
    decode_varint (encode_varint (2 ^ 64 - 1) ++ [7]) = some (2 ^ 64 - 1, [7]) ∧
    (encode_varint (2 ^ 64 - 1)).length = encoded_len_varint (2 ^ 64 - 1) ∧
    1 ≤ encoded_len_varint (2 ^ 64 - 1) ∧ encoded_len_varint (2 ^ 64 - 1) ≤ 10 :=
  varint_round_trip (2 ^ 64 - 1) [7] (by norm_num)

/-- A successful varint decode consumes at least one byte. -/
theorem decode_varint_aux_consumes :
    ∀ fuel count value buf v rest,
      decode_varint_aux fuel count value buf = some (v, rest) →
      rest.length < buf.length := by
  intro fuel
  induction fuel with
  | zero =>
    intro count value buf v rest h
    rw [decode_varint_aux] at h
    exact absurd h (by simp)
  | succ f ih =>
    intro count value buf v rest h
    match buf with
    | [] =>
      rw [decode_varint_aux] at h
      exact absurd h (by simp)
    | c :: tail =>
      rw [decode_varint_aux] at h
      by_cases hb : c % 256 ≤ 127
      · rw [if_pos hb] at h
        simp only [Option.some.injEq, Prod.mk.injEq] at h
        rw [← h.2]
        simp
      · rw [if_neg hb] at h
        have := ih _ _ _ _ _ h
        simp only [List.length_cons]
        omega

/-- A successful varint decode consumes at least one byte (top level). -/
theorem decode_varint_consumes (buf : List Nat) (v : Nat) (rest : List Nat)
    (h : decode_varint buf = some (v, rest)) : rest.length < buf.length :=
  decode_varint_aux_consumes 10 0 0 buf v rest h

/-- The decode loop fails exactly when every byte it is allowed to look at
(at most `fuel` of them) has the continuation bit set. -/
theorem decode_varint_aux_none_iff :
    ∀ fuel count value buf,
      decode_varint_aux fuel count value buf = none ↔
        ∀ i < min fuel buf.length, 128 ≤ buf.getD i 0 % 256 := by
  intro fuel
  induction fuel with
  | zero =>
    intro count value buf
    simp [decode_varint_aux]
  | succ f ih =>
    intro count value buf
    match buf with
    | [] => simp [decode_varint_aux]
    | c :: tail =>
      rw [decode_varint_aux]
      by_cases hb : c % 256 ≤ 127
      · rw [if_pos hb]
        constructor
        · intro h
          exact absurd h (by simp)
        · intro h
          have h0 := h 0 (by simp)
          rw [List.getD_cons_zero] at h0
          omega
      · rw [if_neg hb]
        rw [ih]
        constructor
        · intro h i hi
          match i with
          | 0 =>
            rw [List.getD_cons_zero]
            omega
          | i + 1 =>
            rw [List.getD_cons_succ]
            refine h i ?_
            simp only [List.length_cons] at hi
            omega
        · intro h i hi
          have hstep := h (i + 1) (by simp only [List.length_cons]; omega)
          rw [List.getD_cons_succ] at hstep
          exact hstep

/-- C8: `decode_varint` fails exactly when (a) the input is exhausted
before a byte with the continuation bit clear is read, or (b) 10 bytes
are consumed and the 10th still has the continuation bit set; otherwise
it succeeds. -/
theorem decode_varint_failure_iff (buf : List Nat) :
    decode_varint buf = none ↔
      ((buf.length < 10 ∧ ∀ i < buf.length, 128 ≤ buf.getD i 0 % 256) ∨
       (10 ≤ buf.length ∧ ∀ i < 10, 128 ≤ buf.getD i 0 % 256)) := by
  rw [decode_varint, decode_varint_aux_none_iff]
  constructor
  · intro h
    by_cases hl : buf.length < 10
    · exact Or.inl ⟨hl, fun i hi => h i (by omega)⟩
    · exact Or.inr ⟨by omega, fun i hi => h i (by omega)⟩
  · intro h i hi
    rcases h with ⟨hlen, hall⟩ | ⟨hlen, hall⟩
    · exact hall i (by omega)
    · exact hall i (by omega)

/-- Witness for C8: nine continuation bytes alone fail, and adding a
terminating byte succeeds. -/
theorem decode_varint_failure_iff_witness :
    (decode_varint (List.replicate 9 255) = none ↔
      ((List.replicate 9 (255 : Nat)).length < 10 ∧
        ∀ i < (List.replicate 9 (255 : Nat)).length,
          128 ≤ (List.replicate 9 (255 : Nat)).getD i 0 % 256) ∨
      (10 ≤ (List.replicate 9 (255 : Nat)).length ∧
        ∀ i < 10, 128 ≤ (List.replicate 9 (255 : Nat)).getD i 0 % 256)) :=
  decode_varint_failure_iff (List.replicate 9 255)

/-- C7: given that the key varint decodes to `k`, `decode_key` fails
exactly when `k` exceeds `2 ^ 32 - 1`, the wire-type bits `k % 8` are
3, 4, 6 or 7, or the tag `k >> 3` is zero; otherwise it returns the tag
(at least 1) and a wire type whose numeric value is in 0, 1, 2, 5,
along with the buffer remainder left by the key varint. -/
theorem decode_key_charac (buf : List Nat) (k : Nat) (krest : List Nat)
    (h : decode_varint buf = some (k, krest)) :
    (decode_key buf = none ↔
      (2 ^ 32 - 1 < k ∨ k % 8 = 3 ∨ k % 8 = 4 ∨ k % 8 = 6 ∨ k % 8 = 7 ∨ k / 8 = 0)) ∧
    (∀ tag wt rest2, decode_key buf = some ((tag, wt), rest2) →
      rest2 = krest ∧ tag = k / 8 ∧ 1 ≤ tag ∧ wt.toNat = k % 8 ∧
      (wt.toNat = 0 ∨ wt.toNat = 1 ∨ wt.toNat = 2 ∨ wt.toNat = 5)) := by
  have hmod : k % 256 % 8 = k % 8 := Nat.mod_mod_of_dvd k (by norm_num)
  have hkey0 : decode_key buf =
      if 2 ^ 32 - 1 < k then none
      else
        match wire_type_try_from (k % 256 % 8) with
        | none => none
        | some wire_type =>
          if k % 2 ^ 32 / 8 < MIN_TAG then none
          else some ((k % 2 ^ 32 / 8, wire_type), krest) := by
    rw [decode_key, h]
  by_cases hbig : 2 ^ 32 - 1 < k
  · rw [hkey0, if_pos hbig]
    refine ⟨⟨fun _ => Or.inl hbig, fun _ => rfl⟩, ?_⟩
    intro tag wt rest2 hsome
    exact absurd hsome (by simp)
  · have hsmall : k % 2 ^ 32 = k := Nat.mod_eq_of_lt (by omega)
    have hkey : decode_key buf =
        match wire_type_try_from (k % 8) with
        | none => none
        | some wire_type =>
          if k / 8 < MIN_TAG then none
          else some ((k / 8, wire_type), krest) := by
      rw [hkey0, if_neg hbig, hmod, hsmall]
    have h8 : k % 8 = 0 ∨ k % 8 = 1 ∨ k % 8 = 2 ∨ k % 8 = 3 ∨ k % 8 = 4 ∨
        k % 8 = 5 ∨ k % 8 = 6 ∨ k % 8 = 7 := by omega
    have hvalid : ∀ w : WireType,
        wire_type_try_from (k % 8) = some w → w.toNat = k % 8 →
        (decode_key buf = none ↔
          (2 ^ 32 - 1 < k ∨ k % 8 = 3 ∨ k % 8 = 4 ∨ k % 8 = 6 ∨ k % 8 = 7 ∨ k / 8 = 0)) ∧
        (∀ tag wt rest2, decode_key buf = some ((tag, wt), rest2) →
          rest2 = krest ∧ tag = k / 8 ∧ 1 ≤ tag ∧ wt.toNat = k % 8 ∧
          (wt.toNat = 0 ∨ wt.toNat = 1 ∨ wt.toNat = 2 ∨ wt.toNat = 5)) := by
      intro w hw hwval
      rw [hw] at hkey
      simp only at hkey
      by_cases htag : k / 8 < MIN_TAG
      · rw [if_pos htag] at hkey
        simp only [MIN_TAG] at htag
        refine ⟨⟨fun _ => by omega, fun _ => hkey⟩, ?_⟩
        intro tag wt rest2 hsome
        rw [hkey] at hsome
        exact absurd hsome (by simp)
      · rw [if_neg htag] at hkey
        simp only [MIN_TAG] at htag
        have hwrange : w.toNat = 0 ∨ w.toNat = 1 ∨ w.toNat = 2 ∨ w.toNat = 5 := by
          cases w <;> simp [WireType.toNat]
        constructor
        · constructor
          · intro hc
            rw [hkey] at hc
            exact absurd hc (by simp)
          · intro hc
            exfalso
            omega
        · intro tag wt rest2 hsome
          rw [hkey] at hsome
          simp only [Option.some.injEq, Prod.mk.injEq] at hsome
          obtain ⟨⟨htageq, hwteq⟩, hresteq⟩ := hsome
          subst htageq
          subst hwteq
          subst hresteq
          exact ⟨rfl, rfl, by omega, hwval, hwrange⟩
    rcases h8 with hk | hk | hk | hk | hk | hk | hk | hk
    · exact hvalid WireType.Varint (by rw [hk]; rfl) (by rw [hk]; rfl)
    · exact hvalid WireType.SixtyFourBit (by rw [hk]; rfl) (by rw [hk]; rfl)
    · exact hvalid WireType.LengthDelimited (by rw [hk]; rfl) (by rw [hk]; rfl)
    · rw [hk] at hkey
      simp only [wire_type_try_from] at hkey
      refine ⟨⟨fun _ => by omega, fun _ => hkey⟩, ?_⟩
      intro tag wt rest2 hsome
      rw [hkey] at hsome
      exact absurd hsome (by simp)
    · rw [hk] at hkey
      simp only [wire_type_try_from] at hkey
      refine ⟨⟨fun _ => by omega, fun _ => hkey⟩, ?_⟩
      intro tag wt rest2 hsome
      rw [hkey] at hsome
      exact absurd hsome (by simp)
    · exact hvalid WireType.ThirtyTwoBit (by rw [hk]; rfl) (by rw [hk]; rfl)
    · rw [hk] at hkey
      simp only [wire_type_try_from] at hkey
      refine ⟨⟨fun _ => by omega, fun _ => hkey⟩, ?_⟩
      intro tag wt rest2 hsome
      rw [hkey] at hsome
      exact absurd hsome (by simp)
    · rw [hk] at hkey
      simp only [wire_type_try_from] at hkey
      refine ⟨⟨fun _ => by omega, fun _ => hkey⟩, ?_⟩
      intro tag wt rest2 hsome
      rw [hkey] at hsome
      exact absurd hsome (by simp)

/-- Witness for C7 at the key byte `0x08` (tag 1, wire type varint). -/
theorem decode_key_charac_witness :
    (decode_key [8] = none ↔
      (2 ^ 32 - 1 < 8 ∨ 8 % 8 = 3 ∨ 8 % 8 = 4 ∨ 8 % 8 = 6 ∨ 8 % 8 = 7 ∨ 8 / 8 = 0)) ∧
    (∀ tag wt rest2, decode_key [8] = some ((tag, wt), rest2) →
      rest2 = [] ∧ tag = 8 / 8 ∧ 1 ≤ tag ∧ WireType.toNat wt = 8 % 8 ∧
      (WireType.toNat wt = 0 ∨ WireType.toNat wt = 1 ∨ WireType.toNat wt = 2 ∨
        WireType.toNat wt = 5)) :=
  decode_key_charac [8] 8 [] (by decide)

/-- C5 counterexample: encoding `int32 (-1)` does not yield ten 0xFF
bytes followed by a trailing 0x01 (that would be 11 bytes). -/
theorem int32_neg_one_not_ten_ff :
    encode_varint (int32_to_uint64 (-1)) ≠ List.replicate 10 255 ++ [1] := by
  decide

/-- C5 (amended): `int32 (-1)` is sign-extended to the all-ones 64-bit
value; its varint encoding is nine 0xFF bytes with a trailing 0x01 — 10
bytes in total; `int32` merge accepts this encoding, truncates the
decoded `u64`, and the round trip returns `-1`. -/
theorem int32_neg_one_round_trip :
    int32_to_uint64 (-1) = 2 ^ 64 - 1 ∧
    encode_varint (int32_to_uint64 (-1)) = List.replicate 9 255 ++ [1] ∧
    (encode_varint (int32_to_uint64 (-1))).length = 10 ∧
    int32_merge WireType.Varint 0 (encode_varint (int32_to_uint64 (-1))) =
      some (-1, []) := by
  decide

/-- C6 counterexample: the all-ones 10-byte varint (nine 0xFF bytes and a
trailing 0x01, value `2 ^ 64 - 1`, every bit of the high half set)
decodes as `sint32` to `-2 ^ 31`, not `-1`. -/
theorem sint32_all_ones_not_neg_one :
    sint32_merge WireType.Varint 0 (List.replicate 9 255 ++ [1]) =
      some (-2147483648, []) ∧ (-2147483648 : Int) ≠ -1 := by
  decide

/-- C6 (amended): `sint32` merge truncates the decoded `u64` to `u32`
before the width-31 inverse zig-zag, so the decoded value depends only on
the low 32 bits of the varint value: a varint whose low 32 bits are 1
(for instance `0xFFFFFFFF00000001`, a 10-byte varint whose high 32 bits
are all ones) decodes to `-1`, and a varint whose low 32 bits are all
ones decodes to `-2 ^ 31`. -/
theorem sint32_truncation (u : Nat) (buf rest : List Nat)
    (h : decode_varint buf = some (u, rest)) :
    sint32_from_uint64 u = sint32_from_uint64 (u % 2 ^ 32) ∧
    (u % 2 ^ 32 = 1 →
      sint32_merge WireType.Varint 0 buf = some (-1, rest)) ∧
    (u % 2 ^ 32 = 2 ^ 32 - 1 →
      sint32_merge WireType.Varint 0 buf = some (-(2 ^ 31), rest)) := by
  have hm : sint32_merge WireType.Varint 0 buf = some (sint32_from_uint64 u, rest) := by
    simp [sint32_merge, check_wire_type, h]
  have htr : sint32_from_uint64 u = sint32_from_uint64 (u % 2 ^ 32) := by
    unfold sint32_from_uint64
    rw [Nat.mod_mod_of_dvd u dvd_rfl]
  refine ⟨htr, ?_, ?_⟩
  · intro hw
    rw [hm, htr, hw]
    have h1 : sint32_from_uint64 1 = -1 := by decide
    rw [h1]
  · intro hw
    rw [hm, htr, hw]
    have h2 : sint32_from_uint64 (2 ^ 32 - 1) = -(2 ^ 31) := by decide
    rw [h2]

/-- Witness for C6 at the 10-byte varint of `0xFFFFFFFF00000001`. -/
theorem sint32_truncation_witness :
    sint32_from_uint64 18446744069414584321 =
      sint32_from_uint64 (18446744069414584321 % 2 ^ 32) ∧
    (18446744069414584321 % 2 ^ 32 = 1 →
      sint32_merge WireType.Varint 0 (encode_varint 18446744069414584321) =
        some (-1, [])) ∧
    (18446744069414584321 % 2 ^ 32 = 2 ^ 32 - 1 →
      sint32_merge WireType.Varint 0 (encode_varint 18446744069414584321) =
        some (-(2 ^ 31), [])) :=
  sint32_truncation 18446744069414584321 (encode_varint 18446744069414584321) []
    (by decide)

/-- The push loop is `merge_singles` followed by appending to the
accumulated vector. -/
theorem merge_repeated_loop_eq_merge_singles {α : Type}
    (m : List Nat → Option (α × List Nat)) :
    ∀ fuel values buf,
      merge_repeated_loop m fuel values buf =
        match merge_singles m fuel buf with
        | none => none
        | some vs => some (values ++ vs) := by
  intro fuel
  induction fuel with
  | zero =>
    intro values buf
    cases buf with
    | nil => simp [merge_repeated_loop, merge_singles]
    | cons c rest => simp [merge_repeated_loop, merge_singles]
  | succ f ih =>
    intro values buf
    cases buf with
    | nil => simp [merge_repeated_loop, merge_singles]
    | cons c rest =>
      rw [merge_repeated_loop, merge_singles]
      cases hm : m (c :: rest) with
      | none => simp
      | some p =>
        obtain ⟨v, buf2⟩ := p
        simp only
        rw [ih]
        cases merge_singles m f buf2 with
        | none => simp
        | some vs => simp

/-- With a single-value merge that consumes at least one byte, any fuel
of at least the buffer length gives `merge_singles` the same result: the
sub-buffer length is always enough fuel. -/
theorem merge_singles_fuel_irrel {α : Type}
    (m : List Nat → Option (α × List Nat))
    (hcons : ∀ b v r, m b = some (v, r) → r.length < b.length) :
    ∀ fuel fuel2 buf, buf.length ≤ fuel → buf.length ≤ fuel2 →
      merge_singles m fuel buf = merge_singles m fuel2 buf := by
  intro fuel
  induction fuel with
  | zero =>
    intro fuel2 buf hf hf2
    have hbuf : buf = [] := List.eq_nil_of_length_eq_zero (by omega)
    subst hbuf
    cases fuel2 <;> simp [merge_singles]
  | succ f ih =>
    intro fuel2 buf hf hf2
    cases buf with
    | nil => cases fuel2 <;> simp [merge_singles]
    | cons c rest =>
      simp only [List.length_cons] at hf hf2
      match fuel2 with
      | 0 => omega
      | f2 + 1 =>
        rw [merge_singles, merge_singles]
        cases hm : m (c :: rest) with
        | none => simp
        | some p =>
          obtain ⟨v, buf2⟩ := p
          simp only
          have hlen := hcons _ _ _ hm
          simp only [List.length_cons] at hlen
          rw [ih f2 buf2 (by omega) (by omega)]

/-- `uint64::merge` consumes at least one byte when it succeeds. -/
theorem uint64_merge_consumes (wt : WireType) (d : Nat) (buf : List Nat)
    (v : Nat) (r : List Nat) (h : uint64_merge wt d buf = some (v, r)) :
    r.length < buf.length := by
  rw [uint64_merge] at h
  cases hc : check_wire_type WireType.Varint wt with
  | none => rw [hc] at h; exact absurd h (by simp)
  | some u =>
    rw [hc] at h
    cases hd : decode_varint buf with
    | none => rw [hd] at h; exact absurd h (by simp)
    | some p =>
      obtain ⟨v2, rest2⟩ := p
      rw [hd] at h
      simp only [Option.some.injEq, Prod.mk.injEq] at h
      rw [← h.2]
      exact decode_varint_consumes buf v2 rest2 hd

/-- C3: for every numeric scalar kind — given by its natural (non
length-delimited) wire type, default and single-value merge —
`merge_repeated_numeric` accepts exactly two wire types: with
`LengthDelimited` it reads an inner length, splits off a sub-cursor of
that many bytes (failing on underflow) and repeatedly merges single
values from it until it is empty, appending each to the destination
vector in order; with the natural wire type it merges a single value and
appends it; any other wire type fails. -/
theorem merge_repeated_numeric_charac {α : Type} (natural_wt : WireType)
    (dflt : α) (mergeOne : WireType → α → List Nat → Option (α × List Nat))
    (hnat : natural_wt ≠ WireType.LengthDelimited) :
    (∀ wt values buf, wt ≠ WireType.LengthDelimited → wt ≠ natural_wt →
      merge_repeated_numeric natural_wt dflt mergeOne wt values buf = none) ∧
    (∀ values buf,
      merge_repeated_numeric natural_wt dflt mergeOne natural_wt values buf =
        match mergeOne natural_wt dflt buf with
        | none => none
        | some (v, rest) => some (values ++ [v], rest)) ∧
    (∀ values buf,
      merge_repeated_numeric natural_wt dflt mergeOne WireType.LengthDelimited values buf =
        match decode_varint buf with
        | none => none
        | some (len, rest) =>
          if rest.length < len then none
          else
            match merge_singles (mergeOne natural_wt dflt) len (rest.take len) with
            | none => none
            | some vs => some (values ++ vs, rest.drop len)) := by
  refine ⟨?_, ?_, ?_⟩
  · intro wt values buf hw1 hw2
    rw [merge_repeated_numeric, if_neg hw1]
    have hc : check_wire_type natural_wt wt = none := by
      rw [check_wire_type, if_neg]
      intro heq
      exact hw2 heq.symm
    rw [hc]
  · intro values buf
    rw [merge_repeated_numeric, if_neg hnat]
    have hc : check_wire_type natural_wt natural_wt = some () := by
      rw [check_wire_type, if_pos rfl]
    rw [hc]
  · intro values buf
    rw [merge_repeated_numeric, if_pos rfl]
    cases hd : decode_varint buf with
    | none => rfl
    | some p =>
      obtain ⟨len, rest⟩ := p
      simp only
      by_cases hlen : rest.length < len
      · rw [if_pos hlen, if_pos hlen]
      · rw [if_neg hlen, if_neg hlen]
        rw [merge_repeated_loop_eq_merge_singles]
        cases merge_singles (mergeOne natural_wt dflt) len (rest.take len) with
        | none => rfl
        | some vs => rfl

/-- Witness for C3 at the `uint64` kind (natural wire type `Varint`,
default 0, single-value merge `uint64_merge`) on concrete buffers:
a wrong wire type fails, and a packed run of two varints plus one
oversized-but-valid encoding is appended element by element. -/
theorem merge_repeated_numeric_charac_witness :
    merge_repeated_numeric WireType.Varint 0 uint64_merge WireType.SixtyFourBit [] [1] =
      none ∧
    merge_repeated_numeric WireType.Varint 0 uint64_merge WireType.LengthDelimited [9]
      [3, 128, 2, 5, 7] = some ([9, 256, 5], [7]) :=
  ⟨(merge_repeated_numeric_charac WireType.Varint 0 uint64_merge (by decide)).1
      WireType.SixtyFourBit [] [1] (by decide) (by decide),
   by
    rw [(merge_repeated_numeric_charac WireType.Varint 0 uint64_merge (by decide)).2.2
      [9] [3, 128, 2, 5, 7]]
    decide⟩

/-- C4: on the map entry `[0x02, 0x18, 0x05]` (inner length 2, then a
field with inner tag 3, wire type varint and payload byte `0x05`), the
source's `merge_with_default` ignores the unknown inner tag without
consuming its payload, re-reads the payload byte `0x05` as a field key
(which has tag 0) and fails, whereas the dispatch the claim describes
skips the unknown field's payload, exhausts the sub-cursor and inserts
the all-default entry `(0, 0)`. -/
theorem map_merge_unknown_inner_tag :
    merge_with_default uint32_merge uint32_merge 0 0 [] [2, 24, 5] = none ∧
    merge_with_default_skipping uint32_merge uint32_merge 0 0 [] [2, 24, 5] =
      some ([(0, 0)], []) := by
  decide

/-- C9 counterexample: at tag 1, encoding the empty string produces the
two bytes `[0x0A, 0x00]` — not zero bytes — and its encoded length is 2,
not 0. -/
theorem empty_string_encoding_not_zero :
    string_encode 1 [] = [10, 0] ∧ string_encode 1 [] ≠ [] ∧
    string_encoded_len 1 [] = 2 ∧ string_encoded_len 1 [] ≠ 0 := by
  decide

/-- C9 (amended): for every valid tag, an empty packed repeated field
(shown for the varint family via `uint32` and the fixed-width family via
`fixed32`) produces zero output bytes and packed encoded length 0; by
contrast `string::encode` and `bytes::encode` of an empty value emit the
field key followed by a zero length byte — `key_len tag + 1` bytes — and
the corresponding `encoded_len` is `key_len tag + 1`, not 0. -/
theorem empty_values_encoding (tag : Nat) (htag1 : MIN_TAG ≤ tag)
    (htag2 : tag ≤ MAX_TAG) :
    uint32_encode_packed tag [] = [] ∧
    uint32_encoded_len_packed tag [] = 0 ∧
    fixed32_encode_packed tag [] = [] ∧
    fixed32_encoded_len_packed tag [] = 0 ∧
    string_encode tag [] = encode_key tag WireType.LengthDelimited ++ [0] ∧
    string_encoded_len tag [] = key_len tag + 1 ∧
    bytes_encode tag [] = encode_key tag WireType.LengthDelimited ++ [0] ∧
    bytes_encoded_len tag [] = key_len tag + 1 := by
  have hv0 : encode_varint 0 = [0] := rfl
  have hl0 : encoded_len_varint 0 = 1 := rfl
  refine ⟨rfl, rfl, rfl, rfl, ?_, ?_, ?_, ?_⟩
  · rw [string_encode]
    simp [hv0]
  · rw [string_encoded_len]
    simp [hl0]
  · rw [bytes_encode]
    simp [hv0]
  · rw [bytes_encoded_len]
    simp [hl0]

/-- Witness for C9 at tag 1. -/
theorem empty_values_encoding_witness :
    uint32_encode_packed 1 [] = [] ∧
    uint32_encoded_len_packed 1 [] = 0 ∧
    fixed32_encode_packed 1 [] = [] ∧
    fixed32_encoded_len_packed 1 [] = 0 ∧
    string_encode 1 [] = encode_key 1 WireType.LengthDelimited ++ [0] ∧
    string_encoded_len 1 [] = key_len 1 + 1 ∧
    bytes_encode 1 [] = encode_key 1 WireType.LengthDelimited ++ [0] ∧
    bytes_encoded_len 1 [] = key_len 1 + 1 :=
  empty_values_encoding 1 (by decide) (by decide)

/-- C10: `string::merge` appends the payload bytes to the destination
before validating UTF-8 — on a well-framed payload whose addition makes
the destination invalid UTF-8, the merge reports failure with the
destination already extended by the raw bytes; by contrast,
`bytes::merge` leaves the destination unchanged on every error path. -/
theorem string_merge_not_atomic (dest buf rest : List Nat) (len : Nat)
    (hdec : decode_varint buf = some (len, rest)) (hlen : len ≤ rest.length)
    (hbad : utf8_valid (dest ++ rest.take len) = false) :
    (string_merge WireType.LengthDelimited dest buf).ok = false ∧
    (string_merge WireType.LengthDelimited dest buf).dest = dest ++ rest.take len ∧
    (∀ wt d b, (bytes_merge wt d b).ok = false → (bytes_merge wt d b).dest = d) := by
  have hb : bytes_merge WireType.LengthDelimited dest buf =
      ⟨dest ++ rest.take len, rest.drop len, true⟩ := by
    rw [bytes_merge]
    have hc : check_wire_type WireType.LengthDelimited WireType.LengthDelimited =
        some () := by
      rw [check_wire_type, if_pos rfl]
    rw [hc, hdec]
    simp only
    rw [if_neg (by omega)]
  have hs : string_merge WireType.LengthDelimited dest buf =
      ⟨dest ++ rest.take len, rest.drop len, false⟩ := by
    rw [string_merge, hb]
    simp only [if_pos rfl]
    rw [hbad]
    simp
  refine ⟨by rw [hs], by rw [hs], ?_⟩
  intro wt d b hng
  cases hc : check_wire_type WireType.LengthDelimited wt with
  | none => simp [bytes_merge, hc]
  | some u =>
    cases hd : decode_varint b with
    | none => simp [bytes_merge, hc, hd]
    | some p =>
      obtain ⟨len2, rest2⟩ := p
      by_cases hl : rest2.length < len2
      · simp [bytes_merge, hc, hd, hl]
      · have hcomp : bytes_merge wt d b =
            ⟨d ++ rest2.take len2, rest2.drop len2, true⟩ := by
          simp [bytes_merge, hc, hd, hl]
        rw [hcomp] at hng
        exact absurd hng (by simp)

/-- Witness for C10: merging the framed payload `[0xFF]` (length 1, one
invalid UTF-8 byte) into an empty string fails but leaves the byte in
the destination. -/
theorem string_merge_not_atomic_witness :
    (string_merge WireType.LengthDelimited [] [1, 255]).ok = false ∧
    (string_merge WireType.LengthDelimited [] [1, 255]).dest =
      [] ++ [(255 : Nat)].take 1 ∧
    (∀ wt d b, (bytes_merge wt d b).ok = false → (bytes_merge wt d b).dest = d) :=
  string_merge_not_atomic [] [1, 255] [255] 1 (by decide) (by decide) (by decide)

/-- Length of `encode_varint` for `u64` values. -/
theorem encode_varint_length (v : Nat) (hv : v < 2 ^ 64) :
    (encode_varint v).length = encoded_len_varint v := by
  refine encode_varint_aux_len 10 v (by omega) (by omega) ?_
  calc v < 2 ^ 64 := hv
  _ ≤ 2 ^ (7 * 10) := by norm_num

/-- An encoded key occupies `key_len tag` bytes for any in-range tag:
the wire-type bits live strictly below the varint threshold structure. -/
theorem encode_key_length (tag : Nat) (wt : WireType) (htag : tag ≤ MAX_TAG) :
    (encode_key tag wt).length = key_len tag := by
  rw [encode_key, key_len]
  have hwt : wt.toNat < 8 := by cases wt <;> simp [WireType.toNat]
  have htag2 : tag ≤ 536870911 := by
    have hmax : MAX_TAG = 536870911 := rfl
    omega
  have hk : (tag <<< 3) ||| wt.toNat = tag * 8 + wt.toNat := by
    have h := shiftLeft_lor_eq_add tag wt.toNat 3 (by omega)
    simpa using h
  rw [hk]
  rw [encode_varint_length _ (by omega)]
  rw [Nat.shiftLeft_eq]
  have a := encoded_len_varint_charac (tag * 8 + wt.toNat)
  have b := encoded_len_varint_charac (tag * 2 ^ 3)
  omega

/-- Length of an encoded `int32` field. -/
theorem int32_encode_length (tag : Nat) (v : Int) (htag : tag ≤ MAX_TAG) :
    (int32_encode tag v).length = int32_encoded_len tag v := by
  rw [int32_encode, int32_encoded_len, List.length_append,
    encode_key_length tag _ htag]
  have hlt : int32_to_uint64 v < 2 ^ 64 := by
    rw [int32_to_uint64]
    have h1 : v % 2 ^ 64 < 2 ^ 64 := Int.emod_lt_of_pos v (by norm_num)
    omega
  rw [encode_varint_length _ hlt]

/-- Length of an encoded `uint64` field. -/
theorem uint64_encode_length (tag : Nat) (v : Nat) (htag : tag ≤ MAX_TAG)
    (hv : v < 2 ^ 64) :
    (uint64_encode tag v).length = uint64_encoded_len tag v := by
  rw [uint64_encode, uint64_encoded_len, List.length_append,
    encode_key_length tag _ htag, encode_varint_length _ hv]

/-- Length of an encoded `string` field. -/
theorem string_encode_length (tag : Nat) (s : List Nat) (htag : tag ≤ MAX_TAG)
    (hs : s.length < 2 ^ 64) :
    (string_encode tag s).length = string_encoded_len tag s := by
  rw [string_encode, string_encoded_len, List.length_append, List.length_append,
    encode_key_length tag _ htag, encode_varint_length _ hs]

/-- The concatenated varints of a packed run occupy the summed varint
lengths. -/
theorem flatten_length_encode_varint (values : List Nat)
    (h : ∀ v ∈ values, v < 2 ^ 64) :
    ((values.map encode_varint).flatten).length =
      (values.map encoded_len_varint).sum := by
  induction values with
  | nil => simp
  | cons a t ih =>
    simp only [List.map_cons, List.flatten_cons, List.length_append, List.sum_cons]
    rw [encode_varint_length a (h a (by simp)), ih (fun v hv => h v (by simp [hv]))]

/-- A packed run's summed varint lengths are bounded by ten bytes per
element. -/
theorem sum_encoded_len_varint_le (values : List Nat) :
    (values.map encoded_len_varint).sum ≤ 10 * values.length := by
  induction values with
  | nil => simp
  | cons a t ih =>
    simp only [List.map_cons, List.sum_cons, List.length_cons]
    have hb := (encoded_len_varint_bounds a).2
    omega

/-- Length of an encoded packed `uint32` field. -/
theorem uint32_encode_packed_length (tag : Nat) (values : List Nat)
    (htag : tag ≤ MAX_TAG) (h : ∀ v ∈ values, v < 2 ^ 64)
    (hlen : values.length < 2 ^ 32) :
    (uint32_encode_packed tag values).length =
      uint32_encoded_len_packed tag values := by
  by_cases hv : values = []
  · subst hv
    rfl
  · rw [uint32_encode_packed, uint32_encoded_len_packed, if_neg hv, if_neg hv]
    rw [List.length_append, List.length_append, encode_key_length _ _ htag]
    have hsum : (values.map encoded_len_varint).sum < 2 ^ 64 := by
      have hle := sum_encoded_len_varint_le values
      omega
    rw [encode_varint_length _ hsum, flatten_length_encode_varint values h]

/-- Length of an encoded message field whose payload has the declared
length. -/
theorem message_field_encode_length (tag len : Nat) (payload : List Nat)
    (htag : tag ≤ MAX_TAG) (hlen : len < 2 ^ 64) (hpay : payload.length = len) :
    (message_field_encode tag len payload).length =
      message_field_encoded_len tag len := by
  rw [message_field_encode, message_field_encoded_len, List.length_append,
    List.length_append, encode_key_length _ _ htag, encode_varint_length _ hlen,
    hpay]

/-- The nested message's generated encode emits exactly its generated
encoded length. -/
theorem sub_msg_encode_length (s : SubMsg) (h : s.g1 < 2 ^ 64) :
    (SubMsg.encode s).length = SubMsg.encoded_len s := by
  rw [SubMsg.encode, SubMsg.encoded_len]
  by_cases hz : s.g1 = 0
  · simp [hz]
  · rw [if_neg hz, if_neg hz]
    exact uint64_encode_length 1 s.g1 (by decide) h

/-- The nested message's encoded length is tiny (key byte plus at most a
10-byte varint). -/
theorem sub_msg_encoded_len_le (s : SubMsg) : SubMsg.encoded_len s ≤ 11 := by
  rw [SubMsg.encoded_len]
  by_cases hz : s.g1 = 0
  · simp [hz]
  · rw [if_neg hz, uint64_encoded_len]
    have hk : key_len 1 = 1 := rfl
    have hb := (encoded_len_varint_bounds s.g1).2
    omega

/-- C2: for every message value (modelled by the spec-described generated
code over the codec of src/encoding.rs) whose fields fit their Rust
types, `encode` appends exactly `encoded_len` bytes. -/
theorem message_encode_length_exact (m : TestMsg) (h : m.wf) :
    (TestMsg.encode m).length = TestMsg.encoded_len m := by
  obtain ⟨h1a, h1b, h2, h3, h4, h4len, hsub⟩ := h
  rw [TestMsg.encode, TestMsg.encoded_len]
  rw [List.length_append, List.length_append, List.length_append,
    List.length_append]
  have e1 : (if m.f1 = 0 then ([] : List Nat) else int32_encode 1 m.f1).length =
      (if m.f1 = 0 then 0 else int32_encoded_len 1 m.f1) := by
    by_cases hc : m.f1 = 0
    · simp [hc]
    · rw [if_neg hc, if_neg hc]
      exact int32_encode_length 1 m.f1 (by decide)
  have e2 : (if m.f2 = 0 then ([] : List Nat) else uint64_encode 2 m.f2).length =
      (if m.f2 = 0 then 0 else uint64_encoded_len 2 m.f2) := by
    by_cases hc : m.f2 = 0
    · simp [hc]
    · rw [if_neg hc, if_neg hc]
      exact uint64_encode_length 2 m.f2 (by decide) h2
  have e3 : (if m.f3 = [] then ([] : List Nat) else string_encode 3 m.f3).length =
      (if m.f3 = [] then 0 else string_encoded_len 3 m.f3) := by
    by_cases hc : m.f3 = []
    · simp [hc]
    · rw [if_neg hc, if_neg hc]
      exact string_encode_length 3 m.f3 (by decide) h3
  have e4 : (uint32_encode_packed 4 m.f4).length =
      uint32_encoded_len_packed 4 m.f4 :=
    uint32_encode_packed_length 4 m.f4 (by decide)
      (fun v hv => by
        have := h4 v hv
        omega)
      h4len
  have e5 : (match m.sub with
      | none => ([] : List Nat)
      | some s => message_field_encode 5 s.encoded_len s.encode).length =
      (match m.sub with
      | none => 0
      | some s => message_field_encoded_len 5 s.encoded_len) := by
    cases hs : m.sub with
    | none => simp
    | some s =>
      rw [hs] at hsub
      simp only at hsub
      exact message_field_encode_length 5 s.encoded_len s.encode (by decide)
        (by have := sub_msg_encoded_len_le s; omega)
        (sub_msg_encode_length s hsub)
  rw [e1, e2, e3, e4, e5]

/-- Witness for C2 at a message exercising every field shape. -/
theorem message_encode_length_exact_witness :
    (TestMsg.encode ⟨-1, 5, [104, 105], [1, 300], some ⟨7⟩⟩).length =
      TestMsg.encoded_len ⟨-1, 5, [104, 105], [1, 300], some ⟨7⟩⟩ :=
  message_encode_length_exact ⟨-1, 5, [104, 105], [1, 300], some ⟨7⟩⟩
    (by
      refine ⟨by decide, by decide, by decide, by decide, by decide, by decide, ?_⟩
      show (7 : Nat) < 2 ^ 64
      decide)
